import Mathlib

/-!
Verification of the ReAct agent loop in
`src/simple-agentic-ai-app-react/src/ai-agent.ts`.

The TypeScript source is shallowly embedded: strings are Lean `String`s
(manipulated through their character lists), the completion client is an
oracle `Nat → String` giving the raw completion text of each call, and a
tool is a record of a name, a description and a function that either
returns an output string or fails with an error string (a thrown
JavaScript error, stringified).
-/

namespace ReactAgent

/-- JavaScript whitespace: the regex `\s` class, also what
`String.prototype.trim` removes. -/
def jsWs (c : Char) : Bool :=
  c = ' ' || c = '\t' || c = '\n' || c = '\x0b' || c = '\x0c' || c = '\r' ||
  c = '\u00A0' || c = '\u1680' || ('\u2000' ≤ c && c ≤ '\u200A') ||
  c = '\u2028' || c = '\u2029' || c = '\u202F' || c = '\u205F' ||
  c = '\u3000' || c = '\uFEFF'

/-- JavaScript line terminators: what `.` in a regex does not match. -/
def lineTerm (c : Char) : Bool :=
  c = '\n' || c = '\r' || c = '\u2028' || c = '\u2029'

/-- `String.prototype.trim` on a character list. -/
def jsTrimL (l : List Char) : List Char :=
  ((l.dropWhile jsWs).reverse.dropWhile jsWs).reverse

/-- `String.prototype.trim`. -/
def jsTrimS (s : String) : String := ⟨jsTrimL s.toList⟩

/-- Prepend a character to the first line of a line list. -/
def consHead (c : Char) : List (List Char) → List (List Char)
  | [] => [[c]]
  | l :: ls => (c :: l) :: ls

/-- `String.prototype.split("\n")` on a character list. -/
def splitNl : List Char → List (List Char)
  | [] => [[]]
  | c :: rest =>
    if c = '\n' then [] :: splitNl rest
    else consHead c (splitNl rest)

/-- `String.prototype.includes`-style search: does `needle` occur in `hay`? -/
def hasSub (needle : List Char) : List Char → Bool
  | [] => needle.isEmpty
  | c :: t => needle.isPrefixOf (c :: t) || hasSub needle t

/-- The line prefixes recognized by `ReactAgent.parseAgentResponse`. -/
def thoughtP : List Char := "Thought:".toList

/-- The `Action:` line prefix. -/
def actionP : List Char := "Action:".toList

/-- The `Action Input:` line prefix. -/
def actionInputP : List Char := "Action Input:".toList

/-- The `Final Answer:` marker, both a line prefix for the parser and the
literal part of the loop's termination regex. -/
def finalAnswerP : List Char := "Final Answer:".toList

/-- One parsed step (interface `AgentStep` in the source). -/
structure AgentStep where
  thought : String
  action : Option String
  actionInput : Option String
  observation : Option String
deriving Repr, DecidableEq

/-- The initial step value `{ thought: "" }`. -/
def AgentStep.init : AgentStep := ⟨"", none, none, none⟩

/-- The scan loop of `ReactAgent.parseAgentResponse` over the processed
lines: each recognized prefix assigns its field (so a later occurrence
overwrites an earlier one), and a `Final Answer:` line stops the scan. -/
def parseStepL : List (List Char) → AgentStep → AgentStep
  | [], step => step
  | line :: rest, step =>
    if thoughtP.isPrefixOf line then
      parseStepL rest { step with thought := ⟨jsTrimL (line.drop 8)⟩ }
    else if actionP.isPrefixOf line then
      parseStepL rest { step with action := some ⟨jsTrimL (line.drop 7)⟩ }
    else if actionInputP.isPrefixOf line then
      parseStepL rest { step with actionInput := some ⟨jsTrimL (line.drop 13)⟩ }
    else if finalAnswerP.isPrefixOf line then
      { step with observation := some ⟨jsTrimL (line.drop 13)⟩ }
    else
      parseStepL rest step

/-- Split into lines, trim each, drop the empty ones: the preprocessing of
`ReactAgent.parseAgentResponse`. -/
def procLinesL (l : List Char) : List (List Char) :=
  ((splitNl l).map jsTrimL).filter (fun x => !x.isEmpty)

/-- `ReactAgent.parseAgentResponse`. -/
def parseAgentResponse (response : String) : AgentStep :=
  parseStepL (procLinesL response.toList) AgentStep.init

/-- The greedy `(.+)` at the end of the final-answer pattern: succeeds iff
the first character is not a line terminator, capturing the maximal run of
non-terminators. -/
def dotPlus (l : List Char) : Option (List Char) :=
  match l with
  | [] => none
  | c :: _ => if lineTerm c then none else some (l.takeWhile (fun d => !lineTerm d))

/-- Backtracking over `\s*`: try consuming `k, k-1, …, 0` whitespace
characters before handing over to `(.+)`. -/
def backtrackWs (rest : List Char) : Nat → Option (List Char)
  | 0 => dotPlus rest
  | k + 1 =>
    match dotPlus (rest.drop (k + 1)) with
    | some cap => some cap
    | none => backtrackWs rest k

/-- Matching `\s*(.+)` against `rest` (greedy, with backtracking),
returning the content of capture group 1. -/
def matchTail (rest : List Char) : Option (List Char) :=
  backtrackWs rest (rest.takeWhile jsWs).length

/-- Leftmost match of `/Final Answer:\s*(.+)/` over the whole text, as in
`response.match(...)` inside `ReactAgent.invoke`, returning capture
group 1. -/
def famScan : List Char → Option (List Char)
  | [] => none
  | c :: cs =>
    if finalAnswerP.isPrefixOf (c :: cs) then
      match matchTail ((c :: cs).drop finalAnswerP.length) with
      | some cap => some cap
      | none => famScan cs
    else famScan cs

/-- Capture group of the loop's final-answer regex on a raw response. -/
def regexFinal (s : String) : Option String := (famScan s.toList).map (fun l => ⟨l⟩)

/-- `response.includes("Final Answer:")`. -/
def hasMarkerS (s : String) : Bool := hasSub finalAnswerP s.toList

/-- The character set the calculator accepts (`allowedChars` in
`simpleCalculator`). -/
def allowedChar (c : Char) : Bool := "0123456789+-*/.() ".toList.contains c

/-- An exact rational as an unreduced fraction with positive denominator,
used to model finite JavaScript numbers. -/
structure CalcQ where
  num : Int
  den : Int
deriving Repr, DecidableEq

/-- The rational with value `n`. -/
def qofInt (n : Int) : CalcQ := ⟨n, 1⟩

/-- Addition of fractions. -/
def qadd (a b : CalcQ) : CalcQ := ⟨a.num * b.den + b.num * a.den, a.den * b.den⟩

/-- Negation of a fraction. -/
def qneg (a : CalcQ) : CalcQ := ⟨-a.num, a.den⟩

/-- Subtraction of fractions. -/
def qsub (a b : CalcQ) : CalcQ := qadd a (qneg b)

/-- Multiplication of fractions. -/
def qmul (a b : CalcQ) : CalcQ := ⟨a.num * b.num, a.den * b.den⟩

/-- Division of fractions (the divisor is nonzero when this is reached),
keeping the denominator positive. -/
def qdivq (a b : CalcQ) : CalcQ :=
  let n := a.num * b.den
  let d := a.den * b.num
  if d < 0 then ⟨-n, -d⟩ else ⟨n, d⟩

/-- Is the fraction zero? -/
def qzero (a : CalcQ) : Bool := a.num == 0

/-- Is the fraction positive? -/
def qpos (a : CalcQ) : Bool := 0 < a.num

/-- Is the fraction nonnegative? -/
def qnonneg (a : CalcQ) : Bool := 0 ≤ a.num

/-- Is the fraction an integer? -/
def qisInt (a : CalcQ) : Bool := a.num % a.den == 0

/-- The integer value of an integral fraction. -/
def qint (a : CalcQ) : Int := a.num.tdiv a.den

/-- JavaScript numbers as produced by arithmetic on the calculator's
expressions, with finite values modelled as exact rationals (IEEE-754
rounding and signed zero are not modelled), plus the three non-finite
values. -/
inductive JSNum where
  | fin (q : CalcQ)
  | inf
  | ninf
  | nan
deriving Repr, DecidableEq

/-- Unary minus on a JavaScript number. -/
def jneg : JSNum → JSNum
  | .fin q => .fin (qneg q)
  | .inf => .ninf
  | .ninf => .inf
  | .nan => .nan

/-- Addition on JavaScript numbers. -/
def jadd : JSNum → JSNum → JSNum
  | .nan, _ => .nan
  | _, .nan => .nan
  | .inf, .ninf => .nan
  | .ninf, .inf => .nan
  | .inf, _ => .inf
  | _, .inf => .inf
  | .ninf, _ => .ninf
  | _, .ninf => .ninf
  | .fin a, .fin b => .fin (qadd a b)

/-- Subtraction on JavaScript numbers. -/
def jsub (a b : JSNum) : JSNum := jadd a (jneg b)

/-- Multiplication on JavaScript numbers. -/
def jmul : JSNum → JSNum → JSNum
  | .nan, _ => .nan
  | _, .nan => .nan
  | .fin a, .fin b => .fin (qmul a b)
  | .fin a, .inf => if qzero a then .nan else if qpos a then .inf else .ninf
  | .fin a, .ninf => if qzero a then .nan else if qpos a then .ninf else .inf
  | .inf, .fin b => if qzero b then .nan else if qpos b then .inf else .ninf
  | .ninf, .fin b => if qzero b then .nan else if qpos b then .ninf else .inf
  | .inf, .inf => .inf
  | .inf, .ninf => .ninf
  | .ninf, .inf => .ninf
  | .ninf, .ninf => .inf

/-- Division on JavaScript numbers; division of a nonzero finite value by
zero gives a signed infinity, and `0/0` gives `NaN`. -/
def jdiv : JSNum → JSNum → JSNum
  | .nan, _ => .nan
  | _, .nan => .nan
  | .fin a, .fin b =>
    if qzero b then
      if qzero a then .nan else if qpos a then .inf else .ninf
    else .fin (qdivq a b)
  | .fin _, .inf => .fin (qofInt 0)
  | .fin _, .ninf => .fin (qofInt 0)
  | .inf, .fin b => if qnonneg b then .inf else .ninf
  | .ninf, .fin b => if qnonneg b then .ninf else .inf
  | .inf, _ => .nan
  | .ninf, _ => .nan

/-- Skip the space characters between tokens (the only whitespace that can
survive the calculator's character filter). -/
def skipSp (l : List Char) : List Char := l.dropWhile (fun c => c = ' ')

/-- Decimal digit test. -/
def isDig (c : Char) : Bool := '0' ≤ c && c ≤ '9'

/-- Value of a digit string. -/
def digitsVal (l : List Char) : Nat := l.foldl (fun a c => 10 * a + (c.toNat - 48)) 0

/-- Parse a decimal numeric literal: digits, optionally a dot and more
digits; a lone dot is a syntax error. -/
def parseNum (l : List Char) : Option (CalcQ × List Char) :=
  let ip := l.takeWhile isDig
  let rest := l.dropWhile isDig
  match rest with
  | '.' :: r2 =>
    let fp := r2.takeWhile isDig
    let r3 := r2.dropWhile isDig
    if ip.isEmpty && fp.isEmpty then none
    else some (⟨(digitsVal ip : Int) * (10 : Int) ^ fp.length + (digitsVal fp : Int),
      (10 : Int) ^ fp.length⟩, r3)
  | _ => if ip.isEmpty then none else some (qofInt (digitsVal ip), rest)

mutual

/-- Factor: a parenthesized expression, a sign applied to a factor, or a
numeric literal. -/
def parseF : Nat → List Char → Option (JSNum × List Char)
  | 0, _ => none
  | fu + 1, l =>
    match skipSp l with
    | '(' :: r =>
      match parseE fu r with
      | some (v, r2) =>
        match skipSp r2 with
        | ')' :: r3 => some (v, r3)
        | _ => none
      | none => none
    | '-' :: r =>
      match parseF fu r with
      | some (v, r2) => some (jneg v, r2)
      | none => none
    | '+' :: r => parseF fu r
    | l2 => (parseNum l2).map (fun p => (JSNum.fin p.1, p.2))

/-- Left-associated chain of `*` and `/` after a first factor. -/
def parseTr : Nat → JSNum → List Char → Option (JSNum × List Char)
  | 0, _, _ => none
  | fu + 1, acc, l =>
    match skipSp l with
    | '*' :: r =>
      match parseF fu r with
      | some (v, r2) => parseTr fu (jmul acc v) r2
      | none => none
    | '/' :: r =>
      match parseF fu r with
      | some (v, r2) => parseTr fu (jdiv acc v) r2
      | none => none
    | l2 => some (acc, l2)

/-- Term: a factor followed by `*`/`/` chains. -/
def parseT : Nat → List Char → Option (JSNum × List Char)
  | 0, _ => none
  | fu + 1, l =>
    match parseF fu l with
    | some (v, r) => parseTr fu v r
    | none => none

/-- Left-associated chain of binary `+` and `-` after a first term. -/
def parseEr : Nat → JSNum → List Char → Option (JSNum × List Char)
  | 0, _, _ => none
  | fu + 1, acc, l =>
    match skipSp l with
    | '+' :: r =>
      match parseT fu r with
      | some (v, r2) => parseEr fu (jadd acc v) r2
      | none => none
    | '-' :: r =>
      match parseT fu r with
      | some (v, r2) => parseEr fu (jsub acc v) r2
      | none => none
    | l2 => some (acc, l2)

/-- Expression: a term followed by `+`/`-` chains. -/
def parseE : Nat → List Char → Option (JSNum × List Char)
  | 0, _ => none
  | fu + 1, l =>
    match parseT fu l with
    | some (v, r) => parseEr fu v r
    | none => none

end

/-- Evaluation of `Function('"use strict"; return (' + clean + ')')()`.
Modelled from the spec: the host JavaScript engine that evaluates the
expression is not part of this repository; the spec describes it as
evaluating the arithmetic expression.  The wrapping parentheses of the
source template are kept; the grammar (decimal literals, `+ - * /`, unary
sign, parentheses) is evaluated with exact rational arithmetic, and both a
syntax error and any leftover input yield `none` (a thrown error in the
host). -/
def evalJS (clean : List Char) : Option JSNum :=
  let w := '(' :: (clean ++ [')'])
  match parseE (3 * w.length + 9) w with
  | some (v, r) => if (skipSp r).isEmpty then some v else none
  | none => none

/-- Decimal digits of a natural number, most significant first (fuelled). -/
def natDigits : Nat → Nat → List Char
  | 0, _ => []
  | _ + 1, 0 => []
  | fu + 1, n => natDigits fu (n / 10) ++ [Char.ofNat (48 + n % 10)]

/-- Decimal rendering of a natural number. -/
def natRender (n : Nat) : List Char := if n = 0 then ['0'] else natDigits (n + 1) n

/-- Decimal rendering of an integer. -/
def intRender (i : Int) : List Char :=
  if i < 0 then '-' :: natRender i.natAbs else natRender i.natAbs

/-- Fractional decimal digits of a rational in `[0, 1)` (fuelled). -/
def fracDigits : Nat → CalcQ → List Char
  | 0, _ => []
  | fu + 1, q =>
    if qzero q then []
    else
      let t := qmul q (qofInt 10)
      let d := t.num.fdiv t.den
      Char.ofNat (48 + d.toNat % 10) :: fracDigits fu (qsub t (qofInt d))

/-- `String(result)`: exact for integers and the non-finite values, and a
truncated 17-digit decimal approximation for other finite values
(JavaScript's shortest-roundtrip float printing is not modelled). -/
def renderNum : JSNum → String
  | .nan => "NaN"
  | .inf => "Infinity"
  | .ninf => "-Infinity"
  | .fin q =>
    if qisInt q then ⟨intRender (qint q)⟩
    else if q.num < 0 then
      ⟨'-' ::
        (intRender ((qneg q).num.fdiv (qneg q).den) ++
          '.' :: fracDigits 17 (qsub (qneg q) (qofInt ((qneg q).num.fdiv (qneg q).den))))⟩
    else
      ⟨intRender (q.num.fdiv q.den) ++
        '.' :: fracDigits 17 (qsub q (qofInt (q.num.fdiv q.den)))⟩

/-- `simpleCalculator` in `ai-agent.ts`: trim, filter on the allowed
character set, then evaluate. -/
def simpleCalculator (expression : String) : String :=
  let clean := jsTrimS expression
  if clean.toList.all allowedChar then
    match evalJS clean.toList with
    | some v => renderNum v
    | none => "Error: Could not evaluate expression"
  else
    "Error: Invalid characters in expression"

/-- `getWeatherInfo`; the argument is `none` when the function is called
with no argument (TypeScript `undefined`), which is the only case in which
the `"New York"` default applies. -/
def getWeatherInfo (city : Option String) : String :=
  "The weather in " ++ city.getD "New York" ++ " is sunny and 72¬∞F (this is mock data)"

/-- A registered tool; `func` either returns an output or fails with a
stringified thrown error. -/
structure Tool where
  name : String
  description : String
  func : String → Except String String

/-- The `tools` array of the source; `now` stands for the current
locale-formatted time returned by `getCurrentTime`. -/
def reactTools (now : String) : List Tool :=
  [⟨"get_time", "Get the current date and time", fun _ => .ok now⟩,
   ⟨"calculator", "Calculate simple math expressions like \x272 + 2\x27 or \x2710 * 5\x27",
     fun s => .ok (simpleCalculator s)⟩,
   ⟨"weather", "Get weather information for a city", fun s => .ok (getWeatherInfo (some s))⟩]

/-- `ReactAgent.executeTool`: name lookup, unknown-tool message, and
conversion of a thrown tool error into an observation string. -/
def executeTool (tools : List Tool) (toolName input : String) : String :=
  match tools.find? (fun t => t.name == toolName) with
  | none =>
    "Error: Tool \x27" ++ toolName ++ "\x27 not found. Available tools: " ++
      String.intercalate ", " (tools.map Tool.name)
  | some tool =>
    match tool.func input with
    | .ok out => out
    | .error e => "Error executing tool \x27" ++ toolName ++ "\x27: " ++ e

/-- The outcome of the non-breaking part of one loop iteration: the
scratchpad passed to the next iteration, and which tool dispatch (action,
action input) happened, if any. -/
structure IterNext where
  scratchpad : String
  dispatched : Option (String × String)
deriving Repr, DecidableEq

/-- The no-final-answer part of one iteration of `ReactAgent.invoke` on a
parsed step: dispatch a tool when the action is truthy (present and
non-empty) and the action input is present (possibly empty), appending the
fixed-format block; otherwise append only the thought. -/
def iterContStep (tools : List Tool) (step : AgentStep) (scratchpad : String) : IterNext :=
  match step.action, step.actionInput with
  | some a, some inp =>
    if a = "" then ⟨scratchpad ++ step.thought ++ "\n", none⟩
    else
      ⟨scratchpad ++ (if step.thought = "" then "I" else "I") ++ " need to use the " ++ a ++
        " tool.\n" ++ "Action: " ++ a ++ "\nAction Input: " ++ inp ++ "\nObservation: " ++
        executeTool tools a inp ++ "\nThought: ", some (a, inp)⟩
  | _, _ => ⟨scratchpad ++ step.thought ++ "\n", none⟩

/-- One full iteration of the loop body of `ReactAgent.invoke`: break with
a trimmed final answer when the raw response contains the marker and the
whole-text regex matches, otherwise parse and continue. -/
inductive IterOut where
  | done (answer : String)
  | next (n : IterNext)
deriving Repr, DecidableEq

/-- One iteration of `ReactAgent.invoke` on the raw response text. -/
def iterOnce (tools : List Tool) (response scratchpad : String) : IterOut :=
  if hasMarkerS response then
    match regexFinal response with
    | some cap => .done (jsTrimS cap)
    | none => .next (iterContStep tools (parseAgentResponse response) scratchpad)
  else .next (iterContStep tools (parseAgentResponse response) scratchpad)

/-- The iteration loop of `ReactAgent.invoke`: `llm i` is the completion
text returned by the `i`-th completion call; returns the final answer
(`""` when the loop exhausted its iterations without a regex match) and
the number of completion calls made. -/
def invokeAux (tools : List Tool) (llm : Nat → String) :
    Nat → Nat → String → String × Nat
  | _, 0, _ => ("", 0)
  | i, r + 1, sp =>
    match iterOnce tools (llm i) sp with
    | .done ans => (ans, 1)
    | .next n =>
      let res := invokeAux tools llm (i + 1) r n.scratchpad
      (res.1, res.2 + 1)

/-- `ReactAgent.invoke`: the returned `output` (the fixed exhaustion
message when the loop ended with a falsy final answer), paired with the
number of completion-client calls. -/
def invoke (tools : List Tool) (llm : Nat → String) (maxIterations : Nat) : String × Nat :=
  let p := invokeAux tools llm 0 maxIterations ""
  (if p.1 = "" then "I couldn\x27t complete the task within the maximum iterations." else p.1,
   p.2)

/-! ### Generic list lemmas -/

/-- `dropWhile` over an append whose first part contains a failing element. -/
theorem dropWhile_append_stop {p : Char → Bool} {a : List Char} (b : List Char)
    (h : ∃ x ∈ a, p x = false) : (a ++ b).dropWhile p = a.dropWhile p ++ b := by
  rw [List.dropWhile_append]
  have hne : a.dropWhile p ≠ [] := by
    intro hnil
    obtain ⟨x, hx, hpx⟩ := h
    have := (List.dropWhile_eq_nil_iff).mp hnil x hx
    simp [hpx] at this
  simp [List.isEmpty_iff, hne]

/-- `takeWhile` over an append whose first part contains a failing element. -/
theorem takeWhile_append_stop {p : Char → Bool} {a : List Char} (b : List Char)
    (h : ∃ x ∈ a, p x = false) : (a ++ b).takeWhile p = a.takeWhile p := by
  rw [List.takeWhile_append]
  have hne : (a.takeWhile p).length ≠ a.length := by
    intro hlen
    obtain ⟨x, hx, hpx⟩ := h
    have heq : a.takeWhile p = a :=
      List.Sublist.eq_of_length (List.takeWhile_sublist p) hlen
    have hmem2 : x ∈ a.takeWhile p := by rw [heq]; exact hx
    have := List.mem_takeWhile_imp hmem2
    simp [hpx] at this
  simp [hne]

/-- Dropping the length of the `takeWhile` prefix is `dropWhile`. -/
theorem drop_length_takeWhile (p : Char → Bool) : ∀ l : List Char,
    l.drop (l.takeWhile p).length = l.dropWhile p
  | [] => rfl
  | c :: t => by
    cases hp : p c <;>
      simp [List.takeWhile_cons, List.dropWhile_cons, hp, drop_length_takeWhile p t]

/-- The head of a nonempty `dropWhile` result fails the predicate. -/
theorem dropWhile_head_false {p : Char → Bool} : ∀ (l : List Char) {c t},
    l.dropWhile p = c :: t → p c = false := by
  intro l
  induction l with
  | nil => intro c t h; simp [List.dropWhile] at h
  | cons x xs ih =>
    intro c t h
    rw [List.dropWhile_cons] at h
    cases hx : p x with
    | true => rw [hx] at h; simp at h; exact ih h
    | false => rw [hx] at h; simp at h; rw [← h.1]; exact hx

/-- `dropWhile` is idempotent. -/
theorem dropWhile_idem (p : Char → Bool) (l : List Char) :
    (l.dropWhile p).dropWhile p = l.dropWhile p := by
  cases h : l.dropWhile p with
  | nil => rfl
  | cons c t => rw [List.dropWhile_cons, dropWhile_head_false l h]; simp

/-! ### Trim lemmas -/

/-- Right trim on a character list. -/
def rtrimL (l : List Char) : List Char := (l.reverse.dropWhile jsWs).reverse

/-- `jsTrimL` is a right trim after a left trim. -/
theorem jsTrimL_eq (l : List Char) : jsTrimL l = rtrimL (l.dropWhile jsWs) := rfl

/-- Unfolding right trim over a `cons`. -/
theorem rtrimL_cons (c : Char) (t : List Char) :
    rtrimL (c :: t) =
      if (rtrimL t).isEmpty then (if jsWs c then [] else [c]) else c :: rtrimL t := by
  rw [rtrimL, List.reverse_cons, List.dropWhile_append]
  cases h : t.reverse.dropWhile jsWs with
  | nil =>
    have hre : rtrimL t = [] := by rw [rtrimL, h]; rfl
    cases hc : jsWs c <;> simp [hre, List.dropWhile_cons, hc]
  | cons a b =>
    have hre : rtrimL t = (a :: b).reverse := by rw [rtrimL, h]
    simp [hre]

/-- Left trim and right trim commute. -/
theorem ltrim_rtrim_comm : ∀ l : List Char,
    (rtrimL l).dropWhile jsWs = rtrimL (l.dropWhile jsWs) := by
  intro l
  induction l with
  | nil => rfl
  | cons c t ih =>
    cases hc : jsWs c with
    | false =>
      rw [List.dropWhile_cons, hc]
      simp only [Bool.false_eq_true, if_false]
      rw [rtrimL_cons]
      cases he : (rtrimL t).isEmpty with
      | true => simp [hc, rtrimL_cons, he, List.dropWhile_cons]
      | false => simp [hc, rtrimL_cons, he, List.dropWhile_cons]
    | true =>
      rw [List.dropWhile_cons, hc]
      simp only [if_true]
      rw [← ih, rtrimL_cons]
      cases he : (rtrimL t).isEmpty with
      | true =>
        have : rtrimL t = [] := by simpa [List.isEmpty_iff] using he
        simp [hc, this]
      | false => simp [hc, List.dropWhile_cons]

/-- Right trim is idempotent. -/
theorem rtrimL_idem (l : List Char) : rtrimL (rtrimL l) = rtrimL l := by
  rw [rtrimL, rtrimL, List.reverse_reverse, dropWhile_idem]

/-- Trimming after a right trim is plain trimming. -/
theorem jsTrimL_rtrimL (l : List Char) : jsTrimL (rtrimL l) = jsTrimL l := by
  rw [jsTrimL_eq, jsTrimL_eq, ltrim_rtrim_comm, rtrimL_idem]

/-- Trimming after a left trim is plain trimming. -/
theorem jsTrimL_dropWhile (l : List Char) : jsTrimL (l.dropWhile jsWs) = jsTrimL l := by
  rw [jsTrimL_eq, jsTrimL_eq, dropWhile_idem]

/-! ### Lemmas about `splitNl` -/

/-- `splitNl` never returns the empty list of lines. -/
theorem splitNl_ne_nil : ∀ l : List Char, splitNl l ≠ [] := by
  intro l
  induction l with
  | nil => simp [splitNl]
  | cons c t ih =>
    by_cases hc : c = '\n'
    · simp [splitNl, hc]
    · simp only [splitNl, hc, if_false]
      cases h : splitNl t <;> simp [consHead]

/-- Decompose `splitNl` of a nonempty input. -/
theorem splitNl_cons_expand (l : List Char) :
    ∃ l0 ls0, splitNl l = l0 :: ls0 := by
  cases h : splitNl l with
  | nil => exact absurd h (splitNl_ne_nil l)
  | cons x xs => exact ⟨x, xs, rfl⟩

/-- `splitNl` distributes over an append at a newline. -/
theorem splitNl_append_nl : ∀ a b : List Char,
    splitNl (a ++ '\n' :: b) = splitNl a ++ splitNl b := by
  intro a
  induction a with
  | nil => intro b; simp [splitNl]
  | cons c t ih =>
    intro b
    by_cases hc : c = '\n'
    · subst hc
      simp [splitNl, ih]
    · obtain ⟨l0, ls0, hsp⟩ := splitNl_cons_expand t
      simp [splitNl, hc, ih, hsp, consHead]

/-- A newline-free list is a single line. -/
theorem splitNl_no_nl : ∀ l : List Char, (∀ c ∈ l, c ≠ '\n') → splitNl l = [l] := by
  intro l
  induction l with
  | nil => intro _; rfl
  | cons c t ih =>
    intro h
    have hc : c ≠ '\n' := h c (by simp)
    have ht := ih (fun x hx => h x (by simp [hx]))
    simp [splitNl, hc, ht, consHead]

/-- The first line produced by `splitNl` is a prefix of the input. -/
theorem splitNl_head_prefix : ∀ (l l0 : List Char) (ls : List (List Char)),
    splitNl l = l0 :: ls → l0 <+: l := by
  intro l
  induction l with
  | nil =>
    intro l0 ls h
    simp [splitNl] at h
    obtain ⟨rfl, -⟩ := h
    simp
  | cons c t ih =>
    intro l0 ls h
    by_cases hc : c = '\n'
    · simp [splitNl, hc] at h
      obtain ⟨rfl, -⟩ := h
      simp
    · obtain ⟨x, xs, hsp⟩ := splitNl_cons_expand t
      simp [splitNl, hc, hsp, consHead] at h
      have hx : x <+: t := ih x xs hsp
      obtain ⟨rfl, -⟩ := h
      exact List.cons_prefix_cons.mpr ⟨rfl, hx⟩

/-- Every line produced by `splitNl` is an infix of the input. -/
theorem mem_splitNl_within : ∀ (l x : List Char), x ∈ splitNl l → x <:+: l := by
  intro l
  induction l with
  | nil =>
    intro x hx
    simp [splitNl] at hx
    simp [hx]
  | cons c t ih =>
    intro x hx
    by_cases hc : c = '\n'
    · simp [splitNl, hc] at hx
      rcases hx with hx | hx
      · simp [hx]
      · exact (ih x hx).trans (List.infix_cons (List.infix_refl t))
    · obtain ⟨l0, ls0, hsp⟩ := splitNl_cons_expand t
      simp [splitNl, hc, hsp, consHead] at hx
      rcases hx with hx | hx
      · have h0 : l0 <+: t := splitNl_head_prefix t l0 ls0 hsp
        rw [hx]
        exact (List.cons_prefix_cons.mpr ⟨rfl, h0⟩).isInfix
      · have hmem : x ∈ splitNl t := by rw [hsp]; exact List.mem_cons_of_mem _ hx
        exact (ih x hmem).trans (List.infix_cons (List.infix_refl t))

/-- A trimmed list is an infix of the original. -/
theorem jsTrimL_within (l : List Char) : jsTrimL l <:+: l := by
  have h1 : rtrimL (l.dropWhile jsWs) <+: l.dropWhile jsWs := by
    rw [rtrimL]
    have hsuf : (l.dropWhile jsWs).reverse.dropWhile jsWs <:+ (l.dropWhile jsWs).reverse :=
      List.dropWhile_suffix jsWs
    rw [← List.reverse_prefix] at hsuf
    simpa using hsuf
  have h2 : l.dropWhile jsWs <:+ l := List.dropWhile_suffix jsWs
  rw [jsTrimL_eq]
  exact h1.isInfix.trans h2.isInfix

/-! ### Lemmas about the final-answer regex -/

/-- A list is a `isPrefixOf` itself extended on the right. -/
theorem isPrefixOf_append_self (p t : List Char) : p.isPrefixOf (p ++ t) = true := by
  simp [List.isPrefixOf_iff_prefix]

/-- Unfolding `famScan` over a `cons`. -/
theorem famScan_cons (c : Char) (cs : List Char) :
    famScan (c :: cs) =
      if finalAnswerP.isPrefixOf (c :: cs) then
        match matchTail ((c :: cs).drop finalAnswerP.length) with
        | some cap => some cap
        | none => famScan cs
      else famScan cs := by
  rw [famScan]

/-- A successful regex scan implies the marker occurs in the text. -/
theorem hasSub_of_famScan : ∀ (l cap : List Char),
    famScan l = some cap → hasSub finalAnswerP l = true := by
  intro l
  induction l with
  | nil => intro cap h; simp [famScan] at h
  | cons c cs ih =>
    intro cap h
    rw [famScan_cons] at h
    cases hp : finalAnswerP.isPrefixOf (c :: cs) with
    | true => simp [hasSub, hp]
    | false =>
      rw [hp] at h
      simp at h
      simp [hasSub, ih cap h]

/-- Scanning skips over a region with no marker occurrence. -/
theorem famScan_append_skip : ∀ (pre tl : List Char),
    (∀ i, i < pre.length → finalAnswerP.isPrefixOf ((pre ++ tl).drop i) = false) →
    famScan (pre ++ tl) = famScan tl := by
  intro pre
  induction pre with
  | nil => intro tl _; rfl
  | cons c t ih =>
    intro tl h
    have h0 : finalAnswerP.isPrefixOf (c :: (t ++ tl)) = false := by
      simpa using h 0 (by simp)
    show famScan (c :: (t ++ tl)) = famScan tl
    rw [famScan_cons, h0]
    simp only [Bool.false_eq_true, if_false]
    apply ih
    intro i hi
    simpa using h (i + 1) (by simpa using Nat.succ_lt_succ hi)

/-- If `(.+)` succeeds after dropping `w` characters, the backtracking
search succeeds with that capture on its first attempt. -/
theorem backtrackWs_first (x : List Char) (w : Nat) (cap : List Char)
    (h : dotPlus (x.drop w) = some cap) : backtrackWs x w = some cap := by
  cases w with
  | zero => simpa [backtrackWs] using h
  | succ k => rw [backtrackWs, h]

/-- `\s*(.+)` on a tail made of a line remainder holding a non-whitespace
character followed by nothing or a newline: the capture is the remainder
with its leading whitespace dropped. -/
theorem matchTail_of_shape (rl tl2 : List Char)
    (hterm : ∀ c ∈ rl, lineTerm c = false)
    (hnws : ∃ c ∈ rl, jsWs c = false)
    (htl2 : tl2 = [] ∨ ∃ t3, tl2 = '\n' :: t3) :
    matchTail (rl ++ tl2) = some (rl.dropWhile jsWs) := by
  have hne : rl.dropWhile jsWs ≠ [] := by
    intro hnil
    obtain ⟨x, hx, hpx⟩ := hnws
    have := List.dropWhile_eq_nil_iff.mp hnil x hx
    simp [hpx] at this
  obtain ⟨c0, r0, hd⟩ : ∃ c0 r0, rl.dropWhile jsWs = c0 :: r0 := by
    cases hh : rl.dropWhile jsWs with
    | nil => exact absurd hh hne
    | cons a b => exact ⟨a, b, rfl⟩
  have hmem : ∀ y ∈ rl.dropWhile jsWs, y ∈ rl :=
    fun y hy => (List.dropWhile_sublist jsWs).mem hy
  unfold matchTail
  rw [takeWhile_append_stop tl2 hnws]
  apply backtrackWs_first
  rw [List.drop_append_of_le_length (List.takeWhile_sublist jsWs).length_le]
  rw [drop_length_takeWhile]
  rw [hd]
  show dotPlus (c0 :: (r0 ++ tl2)) = some (c0 :: r0)
  have hc0 : lineTerm c0 = false := hterm c0 (hmem c0 (by rw [hd]; simp))
  rw [show dotPlus (c0 :: (r0 ++ tl2)) =
    if lineTerm c0 then none
    else some (List.takeWhile (fun d => !lineTerm d) (c0 :: (r0 ++ tl2))) from rfl]
  rw [hc0]
  simp only [Bool.false_eq_true, if_false]
  have hall : ∀ a ∈ c0 :: r0, (fun d => !lineTerm d) a = true := by
    intro a ha
    have : a ∈ rl := hmem a (by rw [hd]; exact ha)
    simp [hterm a this]
  have htw2 : ((c0 :: r0) ++ tl2).takeWhile (fun d => !lineTerm d) =
      (c0 :: r0) ++ tl2.takeWhile (fun d => !lineTerm d) :=
    List.takeWhile_append_of_pos hall
  rw [List.cons_append] at htw2
  rw [htw2]
  rcases htl2 with rfl | ⟨t3, rfl⟩
  · simp
  · simp [List.takeWhile_cons, lineTerm]

/-- A successful `\s*(.+)` match right after the marker is what the whole
scan returns when no marker occurrence precedes it. -/
theorem famScan_marker (tl cap : List Char) (h : matchTail tl = some cap) :
    famScan (finalAnswerP ++ tl) = some cap := by
  obtain ⟨c, cs, hca⟩ : ∃ c cs, finalAnswerP ++ tl = c :: cs :=
    ⟨'F', "inal Answer:".toList ++ tl, rfl⟩
  rw [hca, famScan_cons, ← hca]
  rw [isPrefixOf_append_self]
  simp only [if_true]
  rw [List.drop_left, h]

/-! ### Lemmas about the parser and the loop -/

/-- Unfolding the parser scan over a `cons`. -/
theorem parseStepL_cons (line : List Char) (rest : List (List Char)) (step : AgentStep) :
    parseStepL (line :: rest) step =
      if thoughtP.isPrefixOf line then
        parseStepL rest { step with thought := ⟨jsTrimL (line.drop 8)⟩ }
      else if actionP.isPrefixOf line then
        parseStepL rest { step with action := some ⟨jsTrimL (line.drop 7)⟩ }
      else if actionInputP.isPrefixOf line then
        parseStepL rest { step with actionInput := some ⟨jsTrimL (line.drop 13)⟩ }
      else if finalAnswerP.isPrefixOf line then
        { step with observation := some ⟨jsTrimL (line.drop 13)⟩ }
      else parseStepL rest step := rfl

/-- Scanning lines with no `Final Answer:` prefix reaches the remaining
lines with some accumulated step whose observation is unchanged. -/
theorem parseStepL_append_no_fa : ∀ (ls1 : List (List Char)) (step : AgentStep)
    (ls2 : List (List Char)),
    (∀ l ∈ ls1, finalAnswerP.isPrefixOf l = false) →
    ∃ step2, parseStepL (ls1 ++ ls2) step = parseStepL ls2 step2 ∧
      step2.observation = step.observation := by
  intro ls1
  induction ls1 with
  | nil => intro step ls2 _; exact ⟨step, rfl, rfl⟩
  | cons l t ih =>
    intro step ls2 h
    have hl : finalAnswerP.isPrefixOf l = false := h l (by simp)
    have ht : ∀ x ∈ t, finalAnswerP.isPrefixOf x = false := fun x hx => h x (by simp [hx])
    rw [List.cons_append, parseStepL_cons]
    by_cases h1 : thoughtP.isPrefixOf l = true
    · simp only [h1, if_true]
      exact ih _ ls2 ht
    · simp only [h1, if_false]
      by_cases h2 : actionP.isPrefixOf l = true
      · simp only [h2, if_true]
        exact ih _ ls2 ht
      · simp only [h2, if_false]
        by_cases h3 : actionInputP.isPrefixOf l = true
        · simp only [h3, if_true]
          exact ih _ ls2 ht
        · simp only [h3, if_false, hl, Bool.false_eq_true, if_false]
          exact ih _ ls2 ht

/-- Lines none of which carry a recognized prefix leave the step unchanged. -/
theorem parseStepL_all_unrecognized : ∀ (ls : List (List Char)) (step : AgentStep),
    (∀ l ∈ ls, thoughtP.isPrefixOf l = false ∧ actionP.isPrefixOf l = false ∧
      actionInputP.isPrefixOf l = false ∧ finalAnswerP.isPrefixOf l = false) →
    parseStepL ls step = step := by
  intro ls
  induction ls with
  | nil => intro step _; rfl
  | cons l t ih =>
    intro step h
    obtain ⟨h1, h2, h3, h4⟩ := h l (by simp)
    rw [parseStepL_cons]
    simp only [h1, h2, h3, h4, Bool.false_eq_true, if_false]
    exact ih step (fun x hx => h x (by simp [hx]))

/-- No processed line of the text carries any recognized prefix. -/
def noPrefixB (s : String) : Bool :=
  (procLinesL s.toList).all fun l =>
    !thoughtP.isPrefixOf l && !actionP.isPrefixOf l && !actionInputP.isPrefixOf l &&
      !finalAnswerP.isPrefixOf l

/-- Parsing a text with no recognized prefixes yields the initial step. -/
theorem parse_of_noPrefix (s : String) (h : noPrefixB s = true) :
    parseAgentResponse s = AgentStep.init := by
  unfold parseAgentResponse
  apply parseStepL_all_unrecognized
  intro l hl
  unfold noPrefixB at h
  have := List.all_eq_true.mp h l hl
  simp only [Bool.and_eq_true, Bool.not_eq_true'] at this
  exact ⟨this.1.1.1, this.1.1.2, this.1.2, this.2⟩

/-- When the regex does not match, an iteration continues with the parsed
step folded into the scratchpad. -/
theorem iterOnce_next (tools : List Tool) (resp sp : String) (h : regexFinal resp = none) :
    iterOnce tools resp sp = .next (iterContStep tools (parseAgentResponse resp) sp) := by
  unfold iterOnce
  cases hm : hasMarkerS resp <;> simp [h]

/-- When the regex matches, an iteration breaks with the trimmed capture. -/
theorem iterOnce_done (tools : List Tool) (resp sp cap : String)
    (h : regexFinal resp = some cap) :
    iterOnce tools resp sp = .done (jsTrimS cap) := by
  have hm : hasMarkerS resp = true := by
    unfold regexFinal at h
    cases hf : famScan resp.toList with
    | none => rw [hf] at h; simp at h
    | some c => exact hasSub_of_famScan _ c hf
  unfold iterOnce
  rw [hm]
  simp [h]

/-- Unfolding one loop iteration that breaks with a final answer. -/
theorem invokeAux_succ_done (tools : List Tool) (llm : Nat → String) (i m : Nat)
    (sp ans : String) (h : iterOnce tools (llm i) sp = .done ans) :
    invokeAux tools llm i (m + 1) sp = (ans, 1) := by
  rw [show invokeAux tools llm i (m + 1) sp =
    (match iterOnce tools (llm i) sp with
      | .done a => (a, 1)
      | .next n => ((invokeAux tools llm (i + 1) m n.scratchpad).1,
          (invokeAux tools llm (i + 1) m n.scratchpad).2 + 1)) from rfl, h]

/-- Unfolding one loop iteration that continues. -/
theorem invokeAux_succ_next (tools : List Tool) (llm : Nat → String) (i m : Nat)
    (sp : String) (n2 : IterNext) (h : iterOnce tools (llm i) sp = .next n2) :
    invokeAux tools llm i (m + 1) sp =
      ((invokeAux tools llm (i + 1) m n2.scratchpad).1,
       (invokeAux tools llm (i + 1) m n2.scratchpad).2 + 1) := by
  rw [show invokeAux tools llm i (m + 1) sp =
    (match iterOnce tools (llm i) sp with
      | .done a => (a, 1)
      | .next n => ((invokeAux tools llm (i + 1) m n.scratchpad).1,
          (invokeAux tools llm (i + 1) m n.scratchpad).2 + 1)) from rfl, h]

/-- A run on marker-free, prefix-free completions never breaks: it makes
one completion call per remaining iteration and ends with an empty final
answer. -/
theorem invokeAux_exhaust (tools : List Tool) (llm : Nat → String)
    (hm : ∀ i, hasMarkerS (llm i) = false) :
    ∀ (n i : Nat) (sp : String), invokeAux tools llm i n sp = ("", n) := by
  intro n
  induction n with
  | zero => intro i sp; rfl
  | succ m ih =>
    intro i sp
    have hnone : regexFinal (llm i) = none := by
      unfold regexFinal
      cases hf : famScan (llm i).toList with
      | none => rfl
      | some c =>
        have := hasSub_of_famScan _ c hf
        have hm2 := hm i
        unfold hasMarkerS at hm2
        rw [hm2] at this
        simp at this
    rw [invokeAux_succ_next tools llm i m sp _ (iterOnce_next tools _ sp hnone)]
    rw [ih (i + 1)]

/-- When the completions up to call `k` do not match the regex and call `k`
does, the loop returns the trimmed capture after exactly `k + 1` calls. -/
theorem invokeAux_done (tools : List Tool) (llm : Nat → String) (cap : String) :
    ∀ (k i m : Nat) (sp : String),
      (∀ j, j < k → regexFinal (llm (i + j)) = none) →
      regexFinal (llm (i + k)) = some cap → k < m →
      invokeAux tools llm i m sp = (jsTrimS cap, k + 1) := by
  intro k
  induction k with
  | zero =>
    intro i m sp h0 hk hm
    obtain ⟨m2, rfl⟩ : ∃ m2, m = m2 + 1 := ⟨m - 1, by omega⟩
    exact invokeAux_succ_done tools llm i m2 sp _ (iterOnce_done tools _ sp cap (by simpa using hk))
  | succ kk ih =>
    intro i m sp h0 hk hm
    obtain ⟨m2, rfl⟩ : ∃ m2, m = m2 + 1 := ⟨m - 1, by omega⟩
    have hn : regexFinal (llm i) = none := by simpa using h0 0 (by omega)
    rw [invokeAux_succ_next tools llm i m2 sp _ (iterOnce_next tools _ sp hn)]
    have h0b : ∀ j, j < kk → regexFinal (llm (i + 1 + j)) = none := by
      intro j hj
      rw [show i + 1 + j = i + (j + 1) by omega]
      exact h0 (j + 1) (by omega)
    have hkb : regexFinal (llm (i + 1 + kk)) = some cap := by
      rw [show i + 1 + kk = i + (kk + 1) by omega]
      exact hk
    rw [ih (i + 1) m2 _ h0b hkb (by omega)]

/-! ### Claims -/

/-- C7: for every tool name not present in the registry, executing the tool
yields the observation string naming the attempted tool and listing the
valid tool names; and when a registered tool's invocation throws, the
failure is caught and converted into the string
`Error executing tool '<name>': <error>`; in both cases a string is
returned rather than an error propagating out of the loop. -/
theorem claim_C7 (tools : List Tool) (nm input : String) :
    (tools.find? (fun t => t.name == nm) = none →
      executeTool tools nm input =
        "Error: Tool \x27" ++ nm ++ "\x27 not found. Available tools: " ++
          String.intercalate ", " (tools.map Tool.name)) ∧
    (∀ tool e, tools.find? (fun t => t.name == nm) = some tool →
      tool.func input = .error e →
      executeTool tools nm input = "Error executing tool \x27" ++ nm ++ "\x27: " ++ e) := by
  constructor
  · intro h
    unfold executeTool
    rw [h]
  · intro tool e hf he
    unfold executeTool
    rw [hf]
    simp [he]

/-- Witness for C7: an unknown tool name produces the not-found
observation, and a throwing tool produces the error observation. -/
theorem claim_C7_witness :
    executeTool (reactTools "now") "searchy" "x" =
      "Error: Tool \x27" ++ "searchy" ++ "\x27 not found. Available tools: " ++
        String.intercalate ", " ((reactTools "now").map Tool.name) ∧
    executeTool [⟨"boom", "d", fun _ => Except.error "kaboom"⟩] "boom" "x" =
      "Error executing tool \x27" ++ "boom" ++ "\x27: " ++ "kaboom" :=
  ⟨(claim_C7 (reactTools "now") "searchy" "x").1 rfl,
   (claim_C7 [⟨"boom", "d", fun _ => Except.error "kaboom"⟩] "boom" "x").2
     ⟨"boom", "d", fun _ => Except.error "kaboom"⟩ "kaboom" rfl rfl⟩

/-- C9 counterexample: invoking the weather tool with the empty input
string returns the mock string embedding an empty city name, and the
result does not mention "New York". -/
theorem claim_C9_counterexample :
    executeTool (reactTools "12:00") "weather" "" =
      "The weather in  is sunny and 72¬∞F (this is mock data)" ∧
    hasSub "New York".toList (executeTool (reactTools "12:00") "weather" "").toList =
      false := by
  constructor
  · rfl
  · decide

/-- C9 (amended): the `"New York"` default applies only when
`getWeatherInfo` is called with no argument (TypeScript `undefined`);
through the tool interface the input string is passed verbatim as the
city, so any input (the empty string included) is embedded as given in the
fixed mock string. -/
theorem claim_C9 (now city input : String) :
    getWeatherInfo none =
      "The weather in New York is sunny and 72¬∞F (this is mock data)" ∧
    getWeatherInfo (some city) =
      "The weather in " ++ city ++ " is sunny and 72¬∞F (this is mock data)" ∧
    executeTool (reactTools now) "weather" input =
      "The weather in " ++ input ++ " is sunny and 72¬∞F (this is mock data)" := by
  exact ⟨rfl, rfl, rfl⟩

/-- C6: the calculator is total: every input yields either the
invalid-characters error string, the could-not-evaluate error string, or
the rendering of the evaluated number; division by zero yields
"Infinity"/"NaN" as a string rather than raising. -/
theorem claim_C6 :
    (∀ s : String, simpleCalculator s = "Error: Invalid characters in expression" ∨
      simpleCalculator s = "Error: Could not evaluate expression" ∨
      ∃ v, evalJS (jsTrimS s).toList = some v ∧ simpleCalculator s = renderNum v) ∧
    simpleCalculator "1/0" = "Infinity" ∧ simpleCalculator "0/0" = "NaN" := by
  refine ⟨fun s => ?_, by decide, by decide⟩
  simp only [simpleCalculator]
  cases hall : (jsTrimS s).toList.all allowedChar with
  | false => left; rfl
  | true =>
    cases hev : evalJS (jsTrimS s).toList with
    | none => right; left; rfl
    | some v => right; right; exact ⟨v, rfl, rfl⟩

/-- C5 counterexample: the input `"\t2+2"` contains a character outside
the allowed set, yet the calculator trims it away and returns `"4"`, not
an error mentioning "Invalid characters". -/
theorem claim_C5_counterexample :
    allowedChar '\t' = false ∧
    simpleCalculator "\t2+2" = "4" ∧
    hasSub "Invalid characters".toList (simpleCalculator "\t2+2").toList = false := by
  refine ⟨by decide, by decide, by decide⟩

/-- C5 (amended): the character filter applies to the trimmed input: when
the trimmed expression contains only allowed characters the calculator
returns the rendering of the evaluated arithmetic value (never the
invalid-characters error), and when the trimmed expression contains a
disallowed character it returns the error string containing
"Invalid characters"; `"2 + 2"` gives `"4"`, `"15 * 23"` gives `"345"`,
and `"alert(1)"` is rejected before evaluation. -/
theorem claim_C5 :
    (∀ s : String, (jsTrimS s).toList.all allowedChar = true →
      ∀ v, evalJS (jsTrimS s).toList = some v → simpleCalculator s = renderNum v) ∧
    (∀ s : String, (jsTrimS s).toList.all allowedChar = false →
      simpleCalculator s = "Error: Invalid characters in expression") ∧
    simpleCalculator "2 + 2" = "4" ∧
    simpleCalculator "15 * 23" = "345" ∧
    simpleCalculator "alert(1)" = "Error: Invalid characters in expression" ∧
    hasSub "Invalid characters".toList
      "Error: Invalid characters in expression".toList = true := by
  refine ⟨fun s hall v hev => ?_, fun s hall => ?_, by decide, by decide, by decide, by decide⟩
  · simp only [simpleCalculator]
    rw [hall, hev]
    rfl
  · simp only [simpleCalculator]
    rw [hall]
    rfl

/-- Witness for C5: both guarded parts applied at concrete inputs. -/
theorem claim_C5_witness :
    simpleCalculator "2 + 2" = renderNum (JSNum.fin ⟨4, 1⟩) ∧
    simpleCalculator "#" = "Error: Invalid characters in expression" :=
  ⟨(claim_C5).1 "2 + 2" (by decide) (JSNum.fin ⟨4, 1⟩) (by decide),
   (claim_C5).2.1 "#" (by decide)⟩

/-- C4: for a completion client whose every response has no recognized
prefixes and no final-answer marker, the loop calls the client exactly
`maxIterations` times (no more, no fewer) and returns the fixed
exhaustion message. -/
theorem claim_C4 (tools : List Tool) (llm : Nat → String) (maxIterations : Nat)
    (hm : ∀ i, hasMarkerS (llm i) = false) (_hp : ∀ i, noPrefixB (llm i) = true) :
    invoke tools llm maxIterations =
      ("I couldn\x27t complete the task within the maximum iterations.", maxIterations) := by
  unfold invoke
  rw [invokeAux_exhaust tools llm hm maxIterations 0 ""]
  rfl

/-- Witness for C4: a client always answering unstructured text exhausts
the default three iterations. -/
theorem claim_C4_witness :
    invoke [] (fun _ => "No useful structure here") 3 =
      ("I couldn\x27t complete the task within the maximum iterations.", 3) :=
  claim_C4 [] (fun _ => "No useful structure here") 3
    (fun _ => by
      show hasMarkerS "No useful structure here" = false
      decide)
    (fun _ => by
      show noPrefixB "No useful structure here" = true
      decide)

/-- C1 counterexample: the bare response `"Final Answer:"` contains the
marker, yet the loop does not transition to done in that iteration: with
two iterations available it makes both calls and returns the exhaustion
message. -/
theorem claim_C1_counterexample :
    hasMarkerS "Final Answer:" = true ∧
    invoke [] (fun _ => "Final Answer:") 2 =
      ("I couldn\x27t complete the task within the maximum iterations.", 2) := by
  refine ⟨by decide, by decide⟩

/-- C1 (amended): the loop breaks in the first iteration whose raw
response matches the whole-text regex `Final Answer:\s*(.+)`; when the
captured text is nonempty after trimming, it is returned as the turn's
output and the remaining iterations are skipped, after exactly `k + 1`
completion calls; in particular for a response `Final Answer: 42` the
loop terminates that turn with output `42`.  (A response that merely
contains the marker without a regex match, such as the bare
`"Final Answer:"`, does not stop the loop.) -/
theorem claim_C1 (tools : List Tool) (llm : Nat → String) (maxIterations k : Nat)
    (cap : String) (h0 : ∀ j, j < k → regexFinal (llm j) = none)
    (hk : regexFinal (llm k) = some cap) (hne : jsTrimS cap ≠ "")
    (hlt : k < maxIterations) :
    invoke tools llm maxIterations = (jsTrimS cap, k + 1) := by
  unfold invoke
  rw [invokeAux_done tools llm cap k 0 maxIterations ""
    (fun j hj => by simpa using h0 j hj) (by simpa using hk) hlt]
  simp [hne]

/-- Witness for C1: `"Final Answer: 42"` terminates the turn with the
captured `"42"` after one completion call. -/
theorem claim_C1_witness :
    invoke [] (fun _ => "Final Answer: 42") 3 = (jsTrimS "42", 0 + 1) :=
  claim_C1 [] (fun _ => "Final Answer: 42") 3 0 "42"
    (fun j hj => absurd hj (Nat.not_lt_zero j)) (by decide) (by decide) (by decide)

/-- String append is associative. -/
theorem strAppend_assoc (a b c : String) : a ++ b ++ c = a ++ (b ++ c) := by
  show String.mk (a.data ++ b.data ++ c.data) = String.mk (a.data ++ (b.data ++ c.data))
  rw [List.append_assoc]

/-- An iteration whose parsed step has a truthy action and a present
action input dispatches that tool and appends the fixed-format block. -/
theorem iterContStep_dispatch (tools : List Tool) (step : AgentStep) (sp a inp : String)
    (ha : step.action = some a) (hne : a ≠ "") (hi : step.actionInput = some inp) :
    iterContStep tools step sp =
      ⟨sp ++ (if step.thought = "" then "I" else "I") ++ " need to use the " ++ a ++
        " tool.\n" ++ "Action: " ++ a ++ "\nAction Input: " ++ inp ++ "\nObservation: " ++
        executeTool tools a inp ++ "\nThought: ", some (a, inp)⟩ := by
  obtain ⟨th, ac, ai, ob⟩ := step
  have ha2 : ac = some a := ha
  have hi2 : ai = some inp := hi
  subst ha2
  subst hi2
  simp only [iterContStep]
  rw [if_neg hne]

/-- C8: on every iteration that dispatches a tool, the text appended to
the scratchpad is the literal phrase `I need to use the <action> tool.`
(the same whether or not a thought was captured, as both branches of the
source conditional are the literal `"I"`), followed by the block
`Action: <action>`, `Action Input: <actionInput>`,
`Observation: <observation>` and a trailing `Thought: `. -/
theorem claim_C8 (tools : List Tool) (response scratchpad a inp : String)
    (ha : (parseAgentResponse response).action = some a) (hne : a ≠ "")
    (hi : (parseAgentResponse response).actionInput = some inp)
    (hr : regexFinal response = none) :
    iterOnce tools response scratchpad =
      .next ⟨scratchpad ++ "I need to use the " ++ a ++ " tool.\n" ++ "Action: " ++ a ++
        "\nAction Input: " ++ inp ++ "\nObservation: " ++ executeTool tools a inp ++
        "\nThought: ", some (a, inp)⟩ := by
  rw [iterOnce_next tools response scratchpad hr]
  rw [iterContStep_dispatch tools (parseAgentResponse response) scratchpad a inp ha hne hi]
  rw [ite_self]
  rw [strAppend_assoc scratchpad "I" " need to use the "]
  rw [show ("I" : String) ++ " need to use the " = "I need to use the " by decide]

/-- Witness for C8: a response selecting the weather tool appends exactly
the fixed-format block. -/
theorem claim_C8_witness :
    iterOnce (reactTools "T") "Thought: x\nAction: weather\nAction Input: Paris" "" =
      .next ⟨"" ++ "I need to use the " ++ "weather" ++ " tool.\n" ++ "Action: " ++
        "weather" ++ "\nAction Input: " ++ "Paris" ++ "\nObservation: " ++
        executeTool (reactTools "T") "weather" "Paris" ++ "\nThought: ",
        some ("weather", "Paris")⟩ :=
  claim_C8 (reactTools "T") "Thought: x\nAction: weather\nAction Input: Paris" ""
    "weather" "Paris" (by decide) (by decide) (by decide) (by decide)

/-- C10: tool dispatch happens exactly when the parsed action is present
and non-empty and the parsed action input is present; an action input
equal to the empty string still dispatches (the tool receives the empty
string), while an action parsed as the empty string takes the thought-only
branch and no tool is invoked. -/
theorem claim_C10 (tools : List Tool) (response scratchpad : String) :
    ((iterContStep tools (parseAgentResponse response) scratchpad).dispatched ≠ none ↔
      ∃ a inp, (parseAgentResponse response).action = some a ∧ a ≠ "" ∧
        (parseAgentResponse response).actionInput = some inp) ∧
    (∀ a inp, (parseAgentResponse response).action = some a → a ≠ "" →
      (parseAgentResponse response).actionInput = some inp →
      (iterContStep tools (parseAgentResponse response) scratchpad).dispatched =
        some (a, inp)) ∧
    ((parseAgentResponse response).action = some "" →
      (iterContStep tools (parseAgentResponse response) scratchpad).dispatched = none) := by
  generalize parseAgentResponse response = step
  obtain ⟨th, ac, ai, ob⟩ := step
  cases ac with
  | none =>
    refine ⟨by simp [iterContStep], ?_, ?_⟩
    · intro a inp ha
      exact absurd ha (by simp)
    · intro h
      exact absurd h (by simp)
  | some a =>
    cases ai with
    | none =>
      refine ⟨by simp [iterContStep], ?_, ?_⟩
      · intro a2 inp ha2 hne2 hi2
        exact absurd hi2 (by simp)
      · intro _
        simp [iterContStep]
    | some inp =>
      by_cases hne : a = ""
      · subst hne
        refine ⟨by simp [iterContStep], ?_, ?_⟩
        · intro a2 inp2 ha2 hne2 hi2
          have h3 : some "" = some a2 := ha2
          exact absurd (Option.some_injective _ h3).symm hne2
        · intro _
          simp [iterContStep]
      · refine ⟨?_, ?_, ?_⟩
        · constructor
          · intro _
            exact ⟨a, inp, rfl, hne, rfl⟩
          · intro _
            simp [iterContStep, hne]
        · intro a2 inp2 ha2 hne2 hi2
          have h3 : some a = some a2 := ha2
          have h4 : some inp = some inp2 := hi2
          obtain rfl := (Option.some_injective _ h3).symm
          obtain rfl := (Option.some_injective _ h4).symm
          simp [iterContStep, hne]
        · intro h
          have h3 : some a = some "" := h
          exact absurd (Option.some_injective _ h3) hne

/-- Witness for C10: an `Action Input:` line with empty remainder still
dispatches with the empty string as input, and an `Action:` line with
empty remainder prevents dispatch. -/
theorem claim_C10_witness :
    (iterContStep [] (parseAgentResponse "Action: calculator\nAction Input:") "").dispatched =
      some ("calculator", "") ∧
    (iterContStep [] (parseAgentResponse "Action:\nAction Input: x") "").dispatched = none :=
  ⟨(claim_C10 [] "Action: calculator\nAction Input:" "").2.1 "calculator" ""
      (by decide) (by decide) (by decide),
   (claim_C10 [] "Action:\nAction Input: x" "").2.2 (by decide)⟩

/-- `Thought:` is not a prefix of an `Action:` line. -/
theorem thoughtP_np_actionP (t : List Char) : thoughtP.isPrefixOf (actionP ++ t) = false := rfl

/-- `Thought:` is not a prefix of an `Action Input:` line. -/
theorem thoughtP_np_actionInputP (t : List Char) :
    thoughtP.isPrefixOf (actionInputP ++ t) = false := rfl

/-- `Action:` is not a prefix of an `Action Input:` line. -/
theorem actionP_np_actionInputP (t : List Char) :
    actionP.isPrefixOf (actionInputP ++ t) = false := rfl

/-- `Thought:` is not a prefix of a `Final Answer:` line. -/
theorem thoughtP_np_finalAnswerP (t : List Char) :
    thoughtP.isPrefixOf (finalAnswerP ++ t) = false := rfl

/-- `Action:` is not a prefix of a `Final Answer:` line. -/
theorem actionP_np_finalAnswerP (t : List Char) :
    actionP.isPrefixOf (finalAnswerP ++ t) = false := rfl

/-- `Action Input:` is not a prefix of a `Final Answer:` line. -/
theorem actionInputP_np_finalAnswerP (t : List Char) :
    actionInputP.isPrefixOf (finalAnswerP ++ t) = false := rfl

/-- C3 counterexample: with two `Thought:` lines the parser retains the
second one, not the first. -/
theorem claim_C3_counterexample :
    (parseAgentResponse "Thought: A\nThought: B").thought = "B" ∧
    (parseAgentResponse "Thought: A\nThought: B").thought ≠ "A" := by
  refine ⟨by decide, by decide⟩

/-- Scanning lines whose segment before the first `Final Answer:` line
contains no `Thought:` line leaves the thought field untouched. -/
theorem parseStepL_preserve_thought : ∀ (ls : List (List Char)) (step : AgentStep),
    (∀ l ∈ ls.takeWhile (fun l => !finalAnswerP.isPrefixOf l),
      thoughtP.isPrefixOf l = false) →
    (parseStepL ls step).thought = step.thought := by
  intro ls
  induction ls with
  | nil => intro step _; rfl
  | cons l rest ih =>
    intro step h
    cases hfa : finalAnswerP.isPrefixOf l with
    | true =>
      obtain ⟨x, rfl⟩ : ∃ x, l = finalAnswerP ++ x := by
        obtain ⟨x, hx⟩ := List.isPrefixOf_iff_prefix.mp hfa
        exact ⟨x, hx.symm⟩
      rw [parseStepL_cons, thoughtP_np_finalAnswerP, if_neg Bool.false_ne_true,
        actionP_np_finalAnswerP, if_neg Bool.false_ne_true,
        actionInputP_np_finalAnswerP, if_neg Bool.false_ne_true,
        isPrefixOf_append_self, if_pos rfl]
    | false =>
      have htw : (l :: rest).takeWhile (fun l2 => !finalAnswerP.isPrefixOf l2) =
          l :: rest.takeWhile (fun l2 => !finalAnswerP.isPrefixOf l2) := by
        rw [List.takeWhile_cons, hfa]
        simp
      have hl : thoughtP.isPrefixOf l = false := by
        apply h l
        rw [htw]
        exact List.mem_cons_self l _
      have hrest : ∀ l2 ∈ rest.takeWhile (fun l2 => !finalAnswerP.isPrefixOf l2),
          thoughtP.isPrefixOf l2 = false := by
        intro l2 hl2
        apply h l2
        rw [htw]
        exact List.mem_cons_of_mem l hl2
      rw [parseStepL_cons, hl, if_neg Bool.false_ne_true]
      by_cases h2 : actionP.isPrefixOf l = true
      · rw [h2, if_pos rfl, ih _ hrest]
      · rw [Bool.eq_false_iff.mpr h2, if_neg Bool.false_ne_true]
        by_cases h3 : actionInputP.isPrefixOf l = true
        · rw [h3, if_pos rfl, ih _ hrest]
        · rw [Bool.eq_false_iff.mpr h3,
            if_neg Bool.false_ne_true]
          rw [hfa, if_neg Bool.false_ne_true]
          exact ih _ hrest

/-- Scanning lines whose segment before the first `Final Answer:` line
contains no `Action:` line leaves the action field untouched. -/
theorem parseStepL_preserve_action : ∀ (ls : List (List Char)) (step : AgentStep),
    (∀ l ∈ ls.takeWhile (fun l => !finalAnswerP.isPrefixOf l),
      actionP.isPrefixOf l = false) →
    (parseStepL ls step).action = step.action := by
  intro ls
  induction ls with
  | nil => intro step _; rfl
  | cons l rest ih =>
    intro step h
    cases hfa : finalAnswerP.isPrefixOf l with
    | true =>
      obtain ⟨x, rfl⟩ : ∃ x, l = finalAnswerP ++ x := by
        obtain ⟨x, hx⟩ := List.isPrefixOf_iff_prefix.mp hfa
        exact ⟨x, hx.symm⟩
      rw [parseStepL_cons, thoughtP_np_finalAnswerP, if_neg Bool.false_ne_true,
        actionP_np_finalAnswerP, if_neg Bool.false_ne_true,
        actionInputP_np_finalAnswerP, if_neg Bool.false_ne_true,
        isPrefixOf_append_self, if_pos rfl]
    | false =>
      have htw : (l :: rest).takeWhile (fun l2 => !finalAnswerP.isPrefixOf l2) =
          l :: rest.takeWhile (fun l2 => !finalAnswerP.isPrefixOf l2) := by
        rw [List.takeWhile_cons, hfa]
        simp
      have hl : actionP.isPrefixOf l = false := by
        apply h l
        rw [htw]
        exact List.mem_cons_self l _
      have hrest : ∀ l2 ∈ rest.takeWhile (fun l2 => !finalAnswerP.isPrefixOf l2),
          actionP.isPrefixOf l2 = false := by
        intro l2 hl2
        apply h l2
        rw [htw]
        exact List.mem_cons_of_mem l hl2
      rw [parseStepL_cons]
      by_cases h1 : thoughtP.isPrefixOf l = true
      · rw [h1, if_pos rfl, ih _ hrest]
      · rw [Bool.eq_false_iff.mpr h1, if_neg Bool.false_ne_true]
        rw [hl, if_neg Bool.false_ne_true]
        by_cases h3 : actionInputP.isPrefixOf l = true
        · rw [h3, if_pos rfl, ih _ hrest]
        · rw [Bool.eq_false_iff.mpr h3,
            if_neg Bool.false_ne_true]
          rw [hfa, if_neg Bool.false_ne_true]
          exact ih _ hrest

/-- Scanning lines whose segment before the first `Final Answer:` line
contains no `Action Input:` line leaves the action-input field untouched. -/
theorem parseStepL_preserve_actionInput : ∀ (ls : List (List Char)) (step : AgentStep),
    (∀ l ∈ ls.takeWhile (fun l => !finalAnswerP.isPrefixOf l),
      actionInputP.isPrefixOf l = false) →
    (parseStepL ls step).actionInput = step.actionInput := by
  intro ls
  induction ls with
  | nil => intro step _; rfl
  | cons l rest ih =>
    intro step h
    cases hfa : finalAnswerP.isPrefixOf l with
    | true =>
      obtain ⟨x, rfl⟩ : ∃ x, l = finalAnswerP ++ x := by
        obtain ⟨x, hx⟩ := List.isPrefixOf_iff_prefix.mp hfa
        exact ⟨x, hx.symm⟩
      rw [parseStepL_cons, thoughtP_np_finalAnswerP, if_neg Bool.false_ne_true,
        actionP_np_finalAnswerP, if_neg Bool.false_ne_true,
        actionInputP_np_finalAnswerP, if_neg Bool.false_ne_true,
        isPrefixOf_append_self, if_pos rfl]
    | false =>
      have htw : (l :: rest).takeWhile (fun l2 => !finalAnswerP.isPrefixOf l2) =
          l :: rest.takeWhile (fun l2 => !finalAnswerP.isPrefixOf l2) := by
        rw [List.takeWhile_cons, hfa]
        simp
      have hl : actionInputP.isPrefixOf l = false := by
        apply h l
        rw [htw]
        exact List.mem_cons_self l _
      have hrest : ∀ l2 ∈ rest.takeWhile (fun l2 => !finalAnswerP.isPrefixOf l2),
          actionInputP.isPrefixOf l2 = false := by
        intro l2 hl2
        apply h l2
        rw [htw]
        exact List.mem_cons_of_mem l hl2
      rw [parseStepL_cons]
      by_cases h1 : thoughtP.isPrefixOf l = true
      · rw [h1, if_pos rfl, ih _ hrest]
      · rw [Bool.eq_false_iff.mpr h1, if_neg Bool.false_ne_true]
        by_cases h2 : actionP.isPrefixOf l = true
        · rw [h2, if_pos rfl, ih _ hrest]
        · rw [Bool.eq_false_iff.mpr h2, if_neg Bool.false_ne_true]
          rw [hl, if_neg Bool.false_ne_true]
          rw [hfa, if_neg Bool.false_ne_true]
          exact ih _ hrest

/-- C3 (amended): each recognized prefix assigns its field on every
occurrence, so a later occurrence overwrites an earlier one; the value
retained for `Thought:`/`Action:`/`Action Input:` is the one from the last
such line reached by the scan, and the scan stops at the first
`Final Answer:` line, so occurrences after it are ignored.  Formally: if
the processed lines are `ls1 ++ occurrence :: ls2` where `ls1` contains no
`Final Answer:` line (so the scan reaches the occurrence) and no line of
`ls2` before its first `Final Answer:` line carries the same prefix (so
the occurrence is the last one reached), the retained field value is the
one from that occurrence, whatever else the text contains. -/
theorem claim_C3 :
    (∀ (r : String) (ls1 : List (List Char)) (t : List Char) (ls2 : List (List Char)),
      procLinesL r.toList = ls1 ++ (thoughtP ++ t) :: ls2 →
      (∀ l ∈ ls1, finalAnswerP.isPrefixOf l = false) →
      (∀ l ∈ ls2.takeWhile (fun l => !finalAnswerP.isPrefixOf l),
        thoughtP.isPrefixOf l = false) →
      (parseAgentResponse r).thought = ⟨jsTrimL t⟩) ∧
    (∀ (r : String) (ls1 : List (List Char)) (t : List Char) (ls2 : List (List Char)),
      procLinesL r.toList = ls1 ++ (actionP ++ t) :: ls2 →
      (∀ l ∈ ls1, finalAnswerP.isPrefixOf l = false) →
      (∀ l ∈ ls2.takeWhile (fun l => !finalAnswerP.isPrefixOf l),
        actionP.isPrefixOf l = false) →
      (parseAgentResponse r).action = some ⟨jsTrimL t⟩) ∧
    (∀ (r : String) (ls1 : List (List Char)) (t : List Char) (ls2 : List (List Char)),
      procLinesL r.toList = ls1 ++ (actionInputP ++ t) :: ls2 →
      (∀ l ∈ ls1, finalAnswerP.isPrefixOf l = false) →
      (∀ l ∈ ls2.takeWhile (fun l => !finalAnswerP.isPrefixOf l),
        actionInputP.isPrefixOf l = false) →
      (parseAgentResponse r).actionInput = some ⟨jsTrimL t⟩) := by
  refine ⟨?_, ?_, ?_⟩
  · intro r ls1 t ls2 hline hfa hlast
    unfold parseAgentResponse
    rw [hline]
    obtain ⟨step2, heq, -⟩ :=
      parseStepL_append_no_fa ls1 AgentStep.init ((thoughtP ++ t) :: ls2) hfa
    rw [heq, parseStepL_cons, isPrefixOf_append_self, if_pos rfl]
    rw [parseStepL_preserve_thought ls2 _ hlast]
    show (⟨jsTrimL ((thoughtP ++ t).drop 8)⟩ : String) = ⟨jsTrimL t⟩
    rw [show (8 : Nat) = thoughtP.length from rfl, List.drop_left]
  · intro r ls1 t ls2 hline hfa hlast
    unfold parseAgentResponse
    rw [hline]
    obtain ⟨step2, heq, -⟩ :=
      parseStepL_append_no_fa ls1 AgentStep.init ((actionP ++ t) :: ls2) hfa
    rw [heq, parseStepL_cons, thoughtP_np_actionP, if_neg Bool.false_ne_true,
      isPrefixOf_append_self, if_pos rfl]
    rw [parseStepL_preserve_action ls2 _ hlast]
    show some (⟨jsTrimL ((actionP ++ t).drop 7)⟩ : String) = some ⟨jsTrimL t⟩
    rw [show (7 : Nat) = actionP.length from rfl, List.drop_left]
  · intro r ls1 t ls2 hline hfa hlast
    unfold parseAgentResponse
    rw [hline]
    obtain ⟨step2, heq, -⟩ :=
      parseStepL_append_no_fa ls1 AgentStep.init ((actionInputP ++ t) :: ls2) hfa
    rw [heq, parseStepL_cons, thoughtP_np_actionInputP, if_neg Bool.false_ne_true,
      actionP_np_actionInputP, if_neg Bool.false_ne_true,
      isPrefixOf_append_self, if_pos rfl]
    rw [parseStepL_preserve_actionInput ls2 _ hlast]
    show some (⟨jsTrimL ((actionInputP ++ t).drop 13)⟩ : String) = some ⟨jsTrimL t⟩
    rw [show (13 : Nat) = actionInputP.length from rfl, List.drop_left]

/-- Witness for C3: the second of two `Thought:` lines wins even with
further lines after it, and a `Thought:` line after the first
`Final Answer:` line is ignored. -/
theorem claim_C3_witness :
    (parseAgentResponse
      "Thought: A\nThought: B\nAction: x\nFinal Answer: z\nThought: C").thought = "B" := by
  have h := (claim_C3).1 "Thought: A\nThought: B\nAction: x\nFinal Answer: z\nThought: C"
    ["Thought: A".toList] " B".toList
    ["Action: x".toList, "Final Answer: z".toList, "Thought: C".toList]
    (by decide) (by decide) (by decide)
  exact h.trans (by decide)

/-- Trimming a raw `Final Answer:` line left-intact: the marker starts
with a non-whitespace character, so only the right end is trimmed. -/
theorem trim_marker_line (rl : List Char) (hnws : ∃ c ∈ rl, jsWs c = false) :
    jsTrimL (finalAnswerP ++ rl) = finalAnswerP ++ rtrimL rl := by
  rw [jsTrimL_eq]
  have h1 : (finalAnswerP ++ rl).dropWhile jsWs = finalAnswerP ++ rl := by
    show List.dropWhile jsWs ('F' :: ("inal Answer:".toList ++ rl)) = _
    rw [List.dropWhile_cons]
    rw [show jsWs 'F' = false from rfl]
    rw [if_neg Bool.false_ne_true]
    rfl
  rw [h1, rtrimL, List.reverse_append]
  obtain ⟨c, hc, hcw⟩ := hnws
  rw [dropWhile_append_stop finalAnswerP.reverse ⟨c, List.mem_reverse.mpr hc, hcw⟩]
  rw [List.reverse_append, List.reverse_reverse]
  rfl

/-- Decomposition of the processed lines of a text whose marker sits at
the start of a line: the lines before it all come (via trimming) from the
prefix, the marker line itself is the marker followed by the right-trimmed
remainder. -/
theorem procLines_decomp (pre rl tl2 : List Char)
    (hpre : pre = [] ∨ ∃ p, pre = p ++ ['\n'])
    (hterm : ∀ c ∈ rl, lineTerm c = false)
    (hnws : ∃ c ∈ rl, jsWs c = false)
    (htl2 : tl2 = [] ∨ ∃ t3, tl2 = '\n' :: t3) :
    ∃ P R, procLinesL (pre ++ (finalAnswerP ++ (rl ++ tl2))) =
        P ++ (finalAnswerP ++ rtrimL rl) :: R ∧
      ∀ l ∈ P, ∃ l0, l0 <:+: pre ∧ l = jsTrimL l0 := by
  have hnl : ∀ c ∈ finalAnswerP ++ rl, c ≠ '\n' := by
    intro c hc
    rcases List.mem_append.mp hc with h | h
    · intro hceq
      subst hceq
      revert h
      decide
    · intro hceq
      have hlt := hterm c h
      subst hceq
      simp [lineTerm] at hlt
  obtain ⟨R0, hsplitIn⟩ : ∃ R0,
      splitNl (finalAnswerP ++ (rl ++ tl2)) = (finalAnswerP ++ rl) :: R0 := by
    rcases htl2 with rfl | ⟨t3, rfl⟩
    · refine ⟨[], ?_⟩
      rw [List.append_nil]
      exact splitNl_no_nl _ hnl
    · refine ⟨splitNl t3, ?_⟩
      rw [show finalAnswerP ++ (rl ++ '\n' :: t3) = (finalAnswerP ++ rl) ++ '\n' :: t3 by simp]
      rw [splitNl_append_nl, splitNl_no_nl _ hnl]
      rfl
  obtain ⟨P0, hsplit, hP0⟩ : ∃ P0, splitNl (pre ++ (finalAnswerP ++ (rl ++ tl2))) =
      P0 ++ (finalAnswerP ++ rl) :: R0 ∧ ∀ l ∈ P0, l <:+: pre := by
    rcases hpre with rfl | ⟨p, rfl⟩
    · exact ⟨[], by simpa using hsplitIn, by simp⟩
    · refine ⟨splitNl p, ?_, ?_⟩
      · rw [show (p ++ ['\n']) ++ (finalAnswerP ++ (rl ++ tl2)) =
          p ++ '\n' :: (finalAnswerP ++ (rl ++ tl2)) by simp]
        rw [splitNl_append_nl, hsplitIn]
      · intro l hl
        exact (mem_splitNl_within p l hl).trans ⟨[], ['\n'], by simp⟩
  refine ⟨(P0.map jsTrimL).filter (fun x => !x.isEmpty),
    ((R0.map jsTrimL).filter (fun x => !x.isEmpty)), ?_, ?_⟩
  · unfold procLinesL
    rw [hsplit, List.map_append, List.filter_append, List.map_cons, List.filter_cons]
    rw [trim_marker_line rl hnws]
    rw [show ((finalAnswerP ++ rtrimL rl).isEmpty) = false from rfl]
    simp
  · intro l hl
    have hmem := List.mem_filter.mp hl
    obtain ⟨l0, hl0, rfl⟩ := List.mem_map.mp hmem.1
    exact ⟨l0, hP0 l0 hl0, rfl⟩

/-- C2 counterexample: for the raw text `"The Final Answer: 42"` the
loop's whole-text regex extracts `"42"`, while the parser's line-based
extraction finds nothing, because the trimmed line does not begin with
the marker: the two detections differ. -/
theorem claim_C2_counterexample :
    regexFinal "The Final Answer: 42" = some "42" ∧
    (parseAgentResponse "The Final Answer: 42").observation = none := by
  refine ⟨by decide, by decide⟩

/-- C2 (amended): the two final-answer extractions are not equivalent in
general (the whole-text regex also fires on a marker occurring mid-line,
and the line-based parse also fires on a bare marker with empty answer
text).  They agree whenever the first occurrence of `Final Answer:` in
the raw text sits at the start of a line, the remainder of that line
contains a non-whitespace character and no other line terminators: then
the regex captures and the parser observes the same trimmed answer text. -/
theorem claim_C2 (r : String) (pre rl tl2 : List Char)
    (hr : r.toList = pre ++ (finalAnswerP ++ (rl ++ tl2)))
    (hpre : pre = [] ∨ ∃ p, pre = p ++ ['\n'])
    (hfirst : ∀ i, i < pre.length →
      finalAnswerP.isPrefixOf ((pre ++ (finalAnswerP ++ (rl ++ tl2))).drop i) = false)
    (hterm : ∀ c ∈ rl, lineTerm c = false)
    (hnws : ∃ c ∈ rl, jsWs c = false)
    (htl2 : tl2 = [] ∨ ∃ t3, tl2 = '\n' :: t3) :
    ∃ cap, regexFinal r = some cap ∧
      (parseAgentResponse r).observation = some (jsTrimS cap) := by
  refine ⟨⟨rl.dropWhile jsWs⟩, ?_, ?_⟩
  · unfold regexFinal
    rw [hr, famScan_append_skip pre _ hfirst,
      famScan_marker _ _ (matchTail_of_shape rl tl2 hterm hnws htl2)]
    rfl
  · obtain ⟨P, R, hlines, hPmem⟩ := procLines_decomp pre rl tl2 hpre hterm hnws htl2
    have hfa : ∀ l ∈ P, finalAnswerP.isPrefixOf l = false := by
      intro l hl
      obtain ⟨l0, hinf, rfl⟩ := hPmem l hl
      cases hp : finalAnswerP.isPrefixOf (jsTrimL l0) with
      | false => rfl
      | true =>
        exfalso
        have hpr : finalAnswerP <+: jsTrimL l0 := List.isPrefixOf_iff_prefix.mp hp
        have hinf2 : finalAnswerP <:+: pre :=
          (hpr.isInfix.trans (jsTrimL_within l0)).trans hinf
        obtain ⟨s2, t2, hdecomp⟩ := hinf2
        have h13 : finalAnswerP.length = 13 := rfl
        have hlen : s2.length < pre.length := by
          rw [← hdecomp]
          simp [h13]
        have htrue : finalAnswerP.isPrefixOf
            ((pre ++ (finalAnswerP ++ (rl ++ tl2))).drop s2.length) = true := by
          rw [← hdecomp]
          rw [show (s2 ++ finalAnswerP ++ t2) ++ (finalAnswerP ++ (rl ++ tl2)) =
            s2 ++ (finalAnswerP ++ (t2 ++ (finalAnswerP ++ (rl ++ tl2)))) by simp]
          rw [List.drop_left]
          exact isPrefixOf_append_self _ _
        have hfalse := hfirst s2.length hlen
        rw [htrue] at hfalse
        simp at hfalse
    unfold parseAgentResponse
    rw [hr, hlines]
    obtain ⟨step2, heq, -⟩ :=
      parseStepL_append_no_fa P AgentStep.init ((finalAnswerP ++ rtrimL rl) :: R) hfa
    rw [heq, parseStepL_cons,
      thoughtP_np_finalAnswerP, if_neg Bool.false_ne_true,
      actionP_np_finalAnswerP, if_neg Bool.false_ne_true,
      actionInputP_np_finalAnswerP, if_neg Bool.false_ne_true,
      isPrefixOf_append_self, if_pos rfl]
    show some (⟨jsTrimL ((finalAnswerP ++ rtrimL rl).drop 13)⟩ : String) =
      some (jsTrimS ⟨rl.dropWhile jsWs⟩)
    rw [show (13 : Nat) = finalAnswerP.length from rfl, List.drop_left]
    rw [jsTrimL_rtrimL]
    show some (⟨jsTrimL rl⟩ : String) = some (⟨jsTrimL (rl.dropWhile jsWs)⟩ : String)
    rw [jsTrimL_dropWhile]

/-- Witness for C2: a well-formed two-line response on which both the
regex extraction and the line-based parse agree on the answer. -/
theorem claim_C2_witness :
    ∃ cap, regexFinal "Thought: done\nFinal Answer: 345" = some cap ∧
      (parseAgentResponse "Thought: done\nFinal Answer: 345").observation =
        some (jsTrimS cap) :=
  claim_C2 "Thought: done\nFinal Answer: 345" "Thought: done\n".toList " 345".toList []
    (by decide) (Or.inr ⟨"Thought: done".toList, by decide⟩)
    (by decide) (by decide) (by decide) (Or.inl rfl)

end ReactAgent
